import Mathlib

/-!
Verification of the Yahtzee Monte Carlo notebook (`yahtzee.ipynb`).

The notebook simulates one turn of Yahtzee (up to three rolls, keeping the
dice that realise the mode of the hand) and estimates the per-turn
probability of rolling five of a kind by Monte Carlo sampling.

The embedding below translates the Python code directly:
  * `find_what_to_keep` mirrors the Python function of the same name,
    including `Counter(roll_list).most_common()` (faces ranked by
    descending count, ties in first-occurrence order) and the incremental
    `if die[1] >= count` threshold loop.
  * `roll_dice` mirrors `np.append(previous_roll, np.random.randint(1, 7,
    5 - len(previous_roll)))`, with the random source modelled as an
    explicit stream `g : Nat → Nat`; each draw takes the next stream value
    modulo 6 plus 1, so every draw lies in [1,6] as `randint(1, 7)` does.
  * `play_one_round_of_yahtzee` mirrors the while loop
    `while roll_count < 3 and mode_count < 5`, with `random.choice`
    modelled as an index drawn from the same stream reduced modulo the
    list length.  The `rolls` field of `TurnState` is ghost
    instrumentation recording each rolled hand (the quantity the
    notebook's first version printed); it does not influence control flow.
-/

/-- Distinct elements of a list in first-occurrence order, accumulating the
elements already seen.  Models the iteration order of a Python `Counter`,
whose keys appear in insertion order. -/
def firstUniquesAux : List Nat → List Nat → List Nat
  | [], _ => []
  | x :: xs, seen =>
    if x ∈ seen then firstUniquesAux xs seen
    else x :: firstUniquesAux xs (x :: seen)

/-- Distinct elements of a list in first-occurrence order. -/
def firstUniques (l : List Nat) : List Nat := firstUniquesAux l []

/-- Ordering used by `Counter.most_common()`: descending by count. -/
def countGE (a b : Nat × Nat) : Prop := b.2 ≤ a.2

instance : DecidableRel countGE := fun a b => Nat.decLe b.2 a.2

instance : IsTotal (Nat × Nat) countGE := ⟨fun a b => Nat.le_total b.2 a.2⟩

instance : IsTrans (Nat × Nat) countGE := ⟨fun _ _ _ h1 h2 => Nat.le_trans h2 h1⟩

/-- `Counter(roll_list).most_common()`: the (face, count) pairs of the
distinct faces of the hand, sorted by descending count; insertion sort with
a non-strict comparison is stable, matching Python's stable `sorted`. -/
def mostCommon (l : List Nat) : List (Nat × Nat) :=
  List.insertionSort countGE ((firstUniques l).map (fun v => (v, l.count v)))

/-- The `for die in counted: if die[1] >= count: ...` loop of
`find_what_to_keep`, carrying the running `count` and `mode_list`. -/
def fwtkLoop : List (Nat × Nat) → Nat → List Nat → List Nat × Nat
  | [], count, mode_list => (mode_list, count)
  | die :: rest, count, mode_list =>
    if count ≤ die.2 then fwtkLoop rest die.2 (mode_list ++ [die.1])
    else fwtkLoop rest count mode_list

/-- Python `find_what_to_keep(roll_list)`: returns `(mode_list, count)`. -/
def find_what_to_keep (roll_list : List Nat) : List Nat × Nat :=
  fwtkLoop (mostCommon roll_list) 0 []

/-- A pure random source: an infinite stream of naturals with a cursor. -/
structure RandState where
  g : Nat → Nat
  pos : Nat

/-- Draw `n` dice from the stream: `np.random.randint(1, 7, n)`.  Each die
is the next stream value reduced to [1,6]. -/
def drawDice (n : Nat) (s : RandState) : List Nat × RandState :=
  ((List.range n).map (fun i => s.g (s.pos + i) % 6 + 1), ⟨s.g, s.pos + n⟩)

/-- Python `roll_dice(previous_roll)`: roll `5 - len(previous_roll)` fresh
dice and append them after the kept dice. -/
def roll_dice (previous_roll : List Nat) (s : RandState) : List Nat × RandState :=
  let drawn := drawDice (5 - previous_roll.length) s
  (previous_roll ++ drawn.1, drawn.2)

/-- Python `random.choice(l)`: pick the element at a stream-determined
index (uniform choice modelled as an arbitrary stream value modulo the
length). -/
def choice (l : List Nat) (s : RandState) : Nat × RandState :=
  (l.getD (s.g s.pos % l.length) 0, ⟨s.g, s.pos + 1⟩)

/-- State of the `while` loop of `play_one_round_of_yahtzee`.  `rolls` is a
ghost trace of the hands rolled so far (what the notebook printed); it has
no effect on the computation. -/
structure TurnState where
  previous_roll : List Nat
  roll_count : Nat
  mode_count : Nat
  rand : RandState
  rolls : List (List Nat)

/-- Python `roll[np.where(roll == keep)]`: the dice of the hand equal to
the chosen face. -/
def keepStep (roll : List Nat) (keep : Nat) : List Nat :=
  roll.filter (fun d => d == keep)

/-- One iteration of the `while` loop: roll, compute the mode, and when the
best mode-count exceeds 1 keep all dice matching a randomly chosen mode
candidate. -/
def loopBody (st : TurnState) : TurnState :=
  let rolled := roll_dice st.previous_roll st.rand
  let to_keep := find_what_to_keep rolled.1
  if 1 < to_keep.2 then
    let ch := choice to_keep.1 rolled.2
    ⟨keepStep rolled.1 ch.1, st.roll_count + 1, to_keep.2, ch.2, st.rolls ++ [rolled.1]⟩
  else
    ⟨st.previous_roll, st.roll_count + 1, to_keep.2, rolled.2, st.rolls ++ [rolled.1]⟩

/-- The guard `roll_count < 3 and mode_count < 5`. -/
abbrev loopCond (st : TurnState) : Prop := st.roll_count < 3 ∧ st.mode_count < 5

/-- The `while` loop, run with explicit fuel.  Each iteration increments
`roll_count`, so fuel 3 from `roll_count = 0` runs the loop to completion
(see `loopCond_runLoop_three`). -/
def runLoop : Nat → TurnState → TurnState
  | 0, st => st
  | fuel + 1, st => if loopCond st then runLoop fuel (loopBody st) else st

/-- One guarded step of the loop: runs the body only when the guard holds. -/
def stepOnce (st : TurnState) : TurnState :=
  if loopCond st then loopBody st else st

/-- The initial state: no kept dice, zero rolls, best mode-count 0. -/
def initState (g : Nat → Nat) : TurnState := ⟨[], 0, 0, ⟨g, 0⟩, []⟩

/-- Python `play_one_round_of_yahtzee()`: run the turn and return 1 on a
Yahtzee (final best mode-count 5), else 0. -/
def play_one_round_of_yahtzee (g : Nat → Nat) : Nat :=
  if (runLoop 3 (initState g)).mode_count = 5 then 1 else 0

/-- The notebook's Monte Carlo loop `for i in range(n):
yahtzees.append(play_one_round_of_yahtzee())`, generalised over the number
of trials; trial `i` consumes its own random stream `g i`. -/
def run_trials (n : Nat) (g : Nat → Nat → Nat) : List Nat :=
  (List.range n).map (fun i => play_one_round_of_yahtzee (g i))

/-- `np.mean` of a list of naturals, as a rational. -/
def listMean (l : List Nat) : ℚ := (l.sum : ℚ) / (l.length : ℚ)

/-- `np.mean(yahtzees)`: the empirical per-turn success probability. -/
def p_hat (n : Nat) (g : Nat → Nat → Nat) : ℚ := listMean (run_trials n g)

/-- Error conditions of the estimator contract (spec sections 4.2 and 7). -/
inductive EstimateError where
  | invalidArgument
  | undefinedResult

/-- Modelled from the spec: the notebook only inlines the Monte Carlo loop
at n = 1000000 and evaluates `1 / 0.046` by hand; the `estimate(n)`
function of spec section 4.2 — with the InvalidArgument guard for n ≤ 0 and
the UndefinedResult guard for `p_hat` = 0 of spec section 7 — exists in no
source file.  Its trial loop and mean are the embedded source definitions
`run_trials` and `p_hat`. -/
def estimate (n : Int) (g : Nat → Nat → Nat) :
    Except EstimateError (ℚ × Except EstimateError ℚ) :=
  if n ≤ 0 then Except.error EstimateError.invalidArgument
  else
    Except.ok (p_hat n.toNat g,
      if p_hat n.toNat g = 0 then Except.error EstimateError.undefinedResult
      else Except.ok (1 / p_hat n.toNat g))

/-! ### Membership facts for `firstUniques` -/

theorem mem_firstUniquesAux (v : Nat) (l : List Nat) :
    ∀ seen, v ∈ firstUniquesAux l seen ↔ v ∈ l ∧ v ∉ seen := by
  induction l with
  | nil => intro seen; simp [firstUniquesAux]
  | cons x xs ih =>
    intro seen
    by_cases hx : x ∈ seen
    · rw [firstUniquesAux, if_pos hx, ih seen]
      constructor
      · rintro ⟨h1, h2⟩
        exact ⟨List.mem_cons_of_mem _ h1, h2⟩
      · rintro ⟨h1, h2⟩
        rcases List.mem_cons.mp h1 with h | h
        · exact absurd (h ▸ hx) h2
        · exact ⟨h, h2⟩
    · rw [firstUniquesAux, if_neg hx, List.mem_cons, ih (x :: seen)]
      constructor
      · rintro (h | ⟨h1, h2⟩)
        · exact ⟨h ▸ List.mem_cons_self x xs, h ▸ hx⟩
        · exact ⟨List.mem_cons_of_mem _ h1,
            fun hc => h2 (List.mem_cons_of_mem _ hc)⟩
      · rintro ⟨h1, h2⟩
        by_cases hvx : v = x
        · exact Or.inl hvx
        · rcases List.mem_cons.mp h1 with h | h
          · exact absurd h hvx
          · refine Or.inr ⟨h, fun hc => ?_⟩
            rcases List.mem_cons.mp hc with h3 | h3
            · exact hvx h3
            · exact h2 h3

theorem mem_firstUniques (v : Nat) (l : List Nat) :
    v ∈ firstUniques l ↔ v ∈ l := by
  rw [firstUniques, mem_firstUniquesAux]
  simp

/-! ### Facts about `mostCommon` -/

theorem mem_mostCommon (l : List Nat) (p : Nat × Nat) :
    p ∈ mostCommon l ↔ p.1 ∈ l ∧ p.2 = l.count p.1 := by
  rw [mostCommon, (List.perm_insertionSort countGE _).mem_iff, List.mem_map]
  constructor
  · rintro ⟨u, hu, hup⟩
    rw [← hup]
    exact ⟨(mem_firstUniques u l).mp hu, rfl⟩
  · rintro ⟨h1, h2⟩
    exact ⟨p.1, (mem_firstUniques p.1 l).mpr h1, by rw [← h2]⟩

theorem sorted_mostCommon (l : List Nat) : List.Sorted countGE (mostCommon l) :=
  List.sorted_insertionSort countGE _

theorem mostCommon_ne_nil (l : List Nat) (hl : l ≠ []) : mostCommon l ≠ [] := by
  intro hmc
  rcases List.exists_mem_of_ne_nil l hl with ⟨v, hv⟩
  have : (v, l.count v) ∈ mostCommon l := (mem_mostCommon l _).mpr ⟨hv, rfl⟩
  rw [hmc] at this
  exact absurd this (List.not_mem_nil _)

/-! ### The threshold loop of `find_what_to_keep` -/

theorem fwtkLoop_all_le :
    ∀ (xs : List (Nat × Nat)) (c : Nat) (ml : List Nat),
      (∀ x ∈ xs, x.2 ≤ c) →
      fwtkLoop xs c ml = (ml ++ (xs.filter (fun x => x.2 == c)).map Prod.fst, c)
  | [], c, ml, _ => by simp [fwtkLoop]
  | x :: xs, c, ml, h => by
    have hx : x.2 ≤ c := h x (List.mem_cons_self x xs)
    have hxs : ∀ y ∈ xs, y.2 ≤ c := fun y hy => h y (List.mem_cons_of_mem x hy)
    by_cases he : x.2 = c
    · rw [fwtkLoop, if_pos (le_of_eq he.symm), he,
        fwtkLoop_all_le xs c (ml ++ [x.1]) hxs, List.filter_cons]
      simp [he]
    · have hlt : x.2 < c := lt_of_le_of_ne hx he
      rw [fwtkLoop, if_neg (by omega), fwtkLoop_all_le xs c ml hxs,
        List.filter_cons]
      simp [he]

theorem fwtk_eq (l : List Nat) (d : Nat × Nat) (rest : List (Nat × Nat))
    (h : mostCommon l = d :: rest) :
    find_what_to_keep l =
      (d.1 :: (rest.filter (fun x => x.2 == d.2)).map Prod.fst, d.2) := by
  have hsort : List.Sorted countGE (d :: rest) := h ▸ sorted_mostCommon l
  have hrest : ∀ x ∈ rest, x.2 ≤ d.2 :=
    fun x hx => List.rel_of_sorted_cons hsort x hx
  rw [find_what_to_keep, h, fwtkLoop, if_pos (Nat.zero_le _), List.nil_append,
    fwtkLoop_all_le rest d.2 [d.1] hrest]
  simp

/-! ### Specification of `find_what_to_keep` -/

theorem fwtk_count_le (l : List Nat) :
    ∀ v ∈ l, l.count v ≤ (find_what_to_keep l).2 := by
  intro v hv
  have hl : l ≠ [] := List.ne_nil_of_mem hv
  rcases hmc : mostCommon l with _ | ⟨d, rest⟩
  · exact absurd hmc (mostCommon_ne_nil l hl)
  · rw [fwtk_eq l d rest hmc]
    have hmem : (v, l.count v) ∈ mostCommon l := (mem_mostCommon l _).mpr ⟨hv, rfl⟩
    rw [hmc] at hmem
    rcases List.mem_cons.mp hmem with h | h
    · exact le_of_eq (congrArg Prod.snd h)
    · have hsort : List.Sorted countGE (d :: rest) := hmc ▸ sorted_mostCommon l
      exact List.rel_of_sorted_cons hsort _ h

theorem fwtk_count_attained (l : List Nat) (hl : l ≠ []) :
    ∃ v ∈ l, l.count v = (find_what_to_keep l).2 := by
  rcases hmc : mostCommon l with _ | ⟨d, rest⟩
  · exact absurd hmc (mostCommon_ne_nil l hl)
  · have hd : d ∈ mostCommon l := hmc ▸ List.mem_cons_self d rest
    rcases (mem_mostCommon l d).mp hd with ⟨h1, h2⟩
    refine ⟨d.1, h1, ?_⟩
    rw [fwtk_eq l d rest hmc, ← h2]

theorem fwtk_mem_iff (l : List Nat) (v : Nat) :
    v ∈ (find_what_to_keep l).1 ↔ v ∈ l ∧ l.count v = (find_what_to_keep l).2 := by
  rcases hmc : mostCommon l with _ | ⟨d, rest⟩
  · constructor
    · intro hv
      rw [find_what_to_keep, hmc] at hv
      simp [fwtkLoop] at hv
    · rintro ⟨h1, _⟩
      have : (v, l.count v) ∈ mostCommon l := (mem_mostCommon l _).mpr ⟨h1, rfl⟩
      rw [hmc] at this
      exact absurd this (List.not_mem_nil _)
  · rw [fwtk_eq l d rest hmc]
    have hsort : List.Sorted countGE (d :: rest) := hmc ▸ sorted_mostCommon l
    constructor
    · intro hv
      rcases List.mem_cons.mp hv with h | h
      · have hd : d ∈ mostCommon l := hmc ▸ List.mem_cons_self d rest
        rcases (mem_mostCommon l d).mp hd with ⟨h1, h2⟩
        exact ⟨h ▸ h1, h ▸ h2.symm⟩
      · rcases List.mem_map.mp h with ⟨x, hx, hxv⟩
        rcases List.mem_filter.mp hx with ⟨hx1, hx2⟩
        have hxm : x ∈ mostCommon l := hmc ▸ List.mem_cons_of_mem d hx1
        rcases (mem_mostCommon l x).mp hxm with ⟨h1, h2⟩
        have hx2e : x.2 = d.2 := by simpa using hx2
        exact ⟨hxv ▸ h1, by rw [← hxv, ← h2, hx2e]⟩
    · rintro ⟨h1, h2⟩
      have hmem : (v, l.count v) ∈ mostCommon l := (mem_mostCommon l _).mpr ⟨h1, rfl⟩
      rw [hmc] at hmem
      rcases List.mem_cons.mp hmem with h | h
      · exact List.mem_cons.mpr (Or.inl (congrArg Prod.fst h))
      · refine List.mem_cons_of_mem _ (List.mem_map.mpr ⟨(v, l.count v), ?_, rfl⟩)
        refine List.mem_filter.mpr ⟨h, ?_⟩
        simp [h2]

/-! ### Facts about rolling and keeping -/

theorem roll_dice_fst (prev : List Nat) (s : RandState) :
    (roll_dice prev s).1 = prev ++ (drawDice (5 - prev.length) s).1 := rfl

theorem drawDice_length (n : Nat) (s : RandState) : (drawDice n s).1.length = n := by
  simp [drawDice]

theorem drawDice_mem (n : Nat) (s : RandState) :
    ∀ d ∈ (drawDice n s).1, 1 ≤ d ∧ d ≤ 6 := by
  intro d hd
  rcases List.mem_map.mp hd with ⟨i, _, hi⟩
  omega

theorem roll_dice_length (prev : List Nat) (s : RandState) (h : prev.length ≤ 5) :
    (roll_dice prev s).1.length = 5 := by
  rw [roll_dice_fst, List.length_append, drawDice_length]
  omega

theorem roll_dice_mem (prev : List Nat) (s : RandState)
    (h : ∀ d ∈ prev, 1 ≤ d ∧ d ≤ 6) :
    ∀ d ∈ (roll_dice prev s).1, 1 ≤ d ∧ d ≤ 6 := by
  intro d hd
  rw [roll_dice_fst] at hd
  rcases List.mem_append.mp hd with h1 | h1
  · exact h d h1
  · exact drawDice_mem _ _ d h1

theorem roll_dice_take (prev : List Nat) (s : RandState) :
    (roll_dice prev s).1.take prev.length = prev := by
  rw [roll_dice_fst]
  exact List.take_left prev _

theorem choice_mem (l : List Nat) (s : RandState) (hl : l ≠ []) :
    (choice l s).1 ∈ l := by
  have hlen : 0 < l.length := List.length_pos.mpr hl
  have hidx : s.g s.pos % l.length < l.length := Nat.mod_lt _ hlen
  show l.getD (s.g s.pos % l.length) 0 ∈ l
  rw [List.getD_eq_getElem l 0 hidx]
  exact List.getElem_mem hidx

theorem keepStep_all_eq (roll : List Nat) (keep : Nat) :
    ∀ d ∈ keepStep roll keep, d = keep := by
  intro d hd
  rcases List.mem_filter.mp hd with ⟨_, h2⟩
  simpa using h2

theorem keepStep_length (roll : List Nat) (keep : Nat) :
    (keepStep roll keep).length = roll.count keep := by
  rw [keepStep, List.count_eq_countP, List.countP_eq_length_filter]

theorem keepStep_sub (roll : List Nat) (keep : Nat) :
    ∀ d ∈ keepStep roll keep, d ∈ roll := by
  intro d hd
  exact (List.mem_filter.mp hd).1

/-! ### The while loop -/

theorem loopBody_eq (st : TurnState) :
    loopBody st =
      if 1 < (find_what_to_keep (roll_dice st.previous_roll st.rand).1).2 then
        ⟨keepStep (roll_dice st.previous_roll st.rand).1
            (choice (find_what_to_keep (roll_dice st.previous_roll st.rand).1).1
              (roll_dice st.previous_roll st.rand).2).1,
          st.roll_count + 1,
          (find_what_to_keep (roll_dice st.previous_roll st.rand).1).2,
          (choice (find_what_to_keep (roll_dice st.previous_roll st.rand).1).1
            (roll_dice st.previous_roll st.rand).2).2,
          st.rolls ++ [(roll_dice st.previous_roll st.rand).1]⟩
      else
        ⟨st.previous_roll, st.roll_count + 1,
          (find_what_to_keep (roll_dice st.previous_roll st.rand).1).2,
          (roll_dice st.previous_roll st.rand).2,
          st.rolls ++ [(roll_dice st.previous_roll st.rand).1]⟩ := rfl

theorem loopBody_roll_count (st : TurnState) :
    (loopBody st).roll_count = st.roll_count + 1 := by
  rw [loopBody_eq]
  split <;> rfl

theorem loopBody_rolls (st : TurnState) :
    (loopBody st).rolls = st.rolls ++ [(roll_dice st.previous_roll st.rand).1] := by
  rw [loopBody_eq]
  split <;> rfl

theorem loopBody_mode_count (st : TurnState) :
    (loopBody st).mode_count =
      (find_what_to_keep (roll_dice st.previous_roll st.rand).1).2 := by
  rw [loopBody_eq]
  split <;> rfl

theorem runLoop_of_not_cond (fuel : Nat) (st : TurnState) (h : ¬ loopCond st) :
    runLoop fuel st = st := by
  cases fuel with
  | zero => rfl
  | succ n => rw [runLoop, if_neg h]

theorem runLoop_of_mode (fuel : Nat) (st : TurnState) (h : 5 ≤ st.mode_count) :
    runLoop fuel st = st :=
  runLoop_of_not_cond fuel st (fun hc => absurd hc.2 (by omega))

theorem stepOnce_of_not_cond (st : TurnState) (h : ¬ loopCond st) :
    stepOnce st = st := by
  rw [stepOnce, if_neg h]

theorem runLoop_succ (i : Nat) (st : TurnState) :
    runLoop (i + 1) st = stepOnce (runLoop i st) := by
  induction i generalizing st with
  | zero => simp only [runLoop, stepOnce]
  | succ n ih =>
    by_cases h : loopCond st
    · rw [runLoop, if_pos h, ih (loopBody st)]
      conv_rhs => rw [runLoop, if_pos h]
    · rw [runLoop_of_not_cond _ _ h, runLoop_of_not_cond _ _ h,
        stepOnce_of_not_cond _ h]

theorem runLoop_rolls_le (fuel : Nat) :
    ∀ st : TurnState, (runLoop fuel st).rolls.length ≤ st.rolls.length + fuel := by
  induction fuel with
  | zero => intro st; simp [runLoop]
  | succ n ih =>
    intro st
    rw [runLoop]
    split
    · have h1 := ih (loopBody st)
      rw [loopBody_rolls] at h1
      simp only [List.length_append, List.length_cons, List.length_nil] at h1
      omega
    · omega

/-! ### Loop invariant -/

/-- Invariant of the turn loop: the kept dice are at most 5, all in [1,6],
and unless the best mode-count is still ≤ 1 they are all copies of a single
face, as many of them as the recorded best mode-count. -/
def TurnInv (st : TurnState) : Prop :=
  st.previous_roll.length ≤ 5 ∧ (∀ d ∈ st.previous_roll, 1 ≤ d ∧ d ≤ 6) ∧
    (st.mode_count ≤ 1 ∨
      ∃ k, (∀ d ∈ st.previous_roll, d = k) ∧
        st.previous_roll.length = st.mode_count)

theorem TurnInv_init (g : Nat → Nat) : TurnInv (initState g) := by
  refine ⟨by simp [initState], by simp [initState], Or.inl (by simp [initState])⟩

theorem loopBody_preserves (st : TurnState) (h : TurnInv st) :
    TurnInv (loopBody st) ∧ st.mode_count ≤ (loopBody st).mode_count := by
  obtain ⟨hlen, hmem, hdisj⟩ := h
  have hrl : (roll_dice st.previous_roll st.rand).1.length = 5 :=
    roll_dice_length _ _ hlen
  have hrm : ∀ d ∈ (roll_dice st.previous_roll st.rand).1, 1 ≤ d ∧ d ≤ 6 :=
    roll_dice_mem _ _ hmem
  have hrne : (roll_dice st.previous_roll st.rand).1 ≠ [] := by
    intro hc
    rw [hc] at hrl
    simp at hrl
  obtain ⟨w, hwmem, hwcount⟩ := fwtk_count_attained _ hrne
  have hnew1 : 1 ≤ (find_what_to_keep (roll_dice st.previous_roll st.rand).1).2 := by
    have := List.count_pos_iff.mpr hwmem
    omega
  have hmono :
      st.mode_count ≤ (find_what_to_keep (roll_dice st.previous_roll st.rand).1).2 := by
    rcases hdisj with hle | ⟨k, hk, hklen⟩
    · omega
    · by_cases hp : st.previous_roll = []
      · rw [hp] at hklen
        simp at hklen
        omega
      · rcases List.exists_mem_of_ne_nil _ hp with ⟨d0, hd0⟩
        have hkmemp : k ∈ st.previous_roll := (hk d0 hd0) ▸ hd0
        have hkmem : k ∈ (roll_dice st.previous_roll st.rand).1 := by
          rw [roll_dice_fst]
          exact List.mem_append.mpr (Or.inl hkmemp)
        have hckp : st.previous_roll.count k = st.previous_roll.length :=
          List.count_eq_length.mpr (fun b hb => (hk b hb).symm)
        have hcle : st.previous_roll.count k ≤
            (roll_dice st.previous_roll st.rand).1.count k := by
          rw [roll_dice_fst, List.count_append]
          omega
        have := fwtk_count_le _ k hkmem
        omega
  have hmodeeq := loopBody_mode_count st
  refine ⟨?_, by omega⟩
  rw [loopBody_eq]
  by_cases hc : 1 < (find_what_to_keep (roll_dice st.previous_roll st.rand).1).2
  · rw [if_pos hc]
    have hmlne : (find_what_to_keep (roll_dice st.previous_roll st.rand).1).1 ≠ [] := by
      intro hnil
      have hw := (fwtk_mem_iff (roll_dice st.previous_roll st.rand).1 w).mpr
        ⟨hwmem, hwcount⟩
      rw [hnil] at hw
      exact absurd hw (List.not_mem_nil w)
    have hchm := choice_mem _ (roll_dice st.previous_roll st.rand).2 hmlne
    obtain ⟨hchroll, hchcount⟩ := (fwtk_mem_iff (roll_dice st.previous_roll st.rand).1
      (choice (find_what_to_keep (roll_dice st.previous_roll st.rand).1).1
        (roll_dice st.previous_roll st.rand).2).1).mp hchm
    refine ⟨?_, ?_, Or.inr ?_⟩
    · show (keepStep _ _).length ≤ 5
      rw [keepStep_length]
      have := List.count_le_length
        (choice (find_what_to_keep (roll_dice st.previous_roll st.rand).1).1
          (roll_dice st.previous_roll st.rand).2).1
        (roll_dice st.previous_roll st.rand).1
      omega
    · intro d hd
      exact hrm d (keepStep_sub _ _ d hd)
    · refine ⟨(choice (find_what_to_keep (roll_dice st.previous_roll st.rand).1).1
        (roll_dice st.previous_roll st.rand).2).1, keepStep_all_eq _ _, ?_⟩
      show (keepStep _ _).length = _
      rw [keepStep_length, hchcount]
  · rw [if_neg hc]
    refine ⟨hlen, hmem, Or.inl ?_⟩
    show (find_what_to_keep (roll_dice st.previous_roll st.rand).1).2 ≤ 1
    omega

theorem stepOnce_preserves (st : TurnState) (h : TurnInv st) :
    TurnInv (stepOnce st) ∧ st.mode_count ≤ (stepOnce st).mode_count := by
  rw [stepOnce]
  split
  · exact loopBody_preserves st h
  · exact ⟨h, le_refl _⟩

theorem TurnInv_runLoop (g : Nat → Nat) (i : Nat) : TurnInv (runLoop i (initState g)) := by
  induction i with
  | zero => exact TurnInv_init g
  | succ n ih =>
    rw [runLoop_succ]
    exact (stepOnce_preserves _ ih).1

/-! ### The loop runs to completion with fuel 3 -/

theorem roll_dice_ne_nil (prev : List Nat) (s : RandState) :
    (roll_dice prev s).1 ≠ [] := by
  intro hc
  have h1 : (roll_dice prev s).1.length = 0 := by rw [hc]; rfl
  rw [roll_dice_fst, List.length_append, drawDice_length] at h1
  omega

theorem runLoop_roll_count_of_cond (fuel : Nat) :
    ∀ st, loopCond (runLoop fuel st) →
      (runLoop fuel st).roll_count = st.roll_count + fuel := by
  induction fuel with
  | zero => intro st _; rfl
  | succ n ih =>
    intro st h
    rw [runLoop] at h ⊢
    by_cases hc : loopCond st
    · rw [if_pos hc] at h ⊢
      rw [ih _ h, loopBody_roll_count]
      omega
    · rw [if_neg hc] at h
      exact absurd h hc

theorem loopCond_runLoop_three (g : Nat → Nat) :
    ¬ loopCond (runLoop 3 (initState g)) := by
  intro h
  have h2 := runLoop_roll_count_of_cond 3 (initState g) h
  have h3 := h.1
  rw [h2] at h3
  simp [initState] at h3

/-! ### Outcomes of a trial and the sample mean -/

theorem play_zero_or_one (g : Nat → Nat) :
    play_one_round_of_yahtzee g = 0 ∨ play_one_round_of_yahtzee g = 1 := by
  rw [play_one_round_of_yahtzee]
  split
  · exact Or.inr rfl
  · exact Or.inl rfl

theorem play_le_one (g : Nat → Nat) : play_one_round_of_yahtzee g ≤ 1 := by
  rw [play_one_round_of_yahtzee]
  split <;> omega

theorem sum_eq_count_one (l : List Nat) (h : ∀ x ∈ l, x = 0 ∨ x = 1) :
    l.sum = l.count 1 := by
  induction l with
  | nil => rfl
  | cons x xs ih =>
    have hx := h x (List.mem_cons_self x xs)
    have hxs := ih (fun y hy => h y (List.mem_cons_of_mem x hy))
    rw [List.sum_cons, List.count_cons, hxs]
    rcases hx with h0 | h1
    · subst h0; simp
    · subst h1; simp [Nat.add_comm]

theorem sum_le_length (l : List Nat) (h : ∀ x ∈ l, x ≤ 1) :
    l.sum ≤ l.length := by
  induction l with
  | nil => simp
  | cons x xs ih =>
    rw [List.sum_cons, List.length_cons]
    have h1 := h x (List.mem_cons_self x xs)
    have h2 := ih (fun y hy => h y (List.mem_cons_of_mem x hy))
    omega

theorem run_trials_length (n : Nat) (g : Nat → Nat → Nat) :
    (run_trials n g).length = n := by
  simp [run_trials]

theorem run_trials_mem (n : Nat) (g : Nat → Nat → Nat) :
    ∀ x ∈ run_trials n g, x = 0 ∨ x = 1 := by
  intro x hx
  rcases List.mem_map.mp hx with ⟨i, _, hi⟩
  rw [← hi]
  exact play_zero_or_one _

theorem run_trials_sum_eq_count (n : Nat) (g : Nat → Nat → Nat) :
    (run_trials n g).sum = (run_trials n g).count 1 :=
  sum_eq_count_one _ (run_trials_mem n g)

theorem run_trials_sum_le (n : Nat) (g : Nat → Nat → Nat) :
    (run_trials n g).sum ≤ n := by
  have h1 : ∀ x ∈ run_trials n g, x ≤ 1 := by
    intro x hx
    rcases List.mem_map.mp hx with ⟨i, _, hi⟩
    rw [← hi]
    exact play_le_one _
  have h2 := sum_le_length _ h1
  rw [run_trials_length] at h2
  exact h2

theorem p_hat_eq_count_div (n : Nat) (g : Nat → Nat → Nat) :
    p_hat n g = ((run_trials n g).count 1 : ℚ) / (n : ℚ) := by
  rw [p_hat, listMean, run_trials_length, run_trials_sum_eq_count]

theorem p_hat_nonneg (n : Nat) (g : Nat → Nat → Nat) : 0 ≤ p_hat n g := by
  rw [p_hat, listMean]
  exact div_nonneg (Nat.cast_nonneg _) (Nat.cast_nonneg _)

theorem p_hat_le_one (n : Nat) (g : Nat → Nat → Nat) : p_hat n g ≤ 1 := by
  rw [p_hat, listMean, run_trials_length]
  rcases Nat.eq_zero_or_pos n with h0 | hpos
  · subst h0
    simp
  · apply div_le_one_of_le₀
    · have h1 := run_trials_sum_le n g
      exact_mod_cast h1
    · exact Nat.cast_nonneg _

/-! ### Claim theorems -/

/-- C1: for every random source, `play_one_round_of_yahtzee` returns 1
(true) iff the best mode-count at loop exit equals 5, and returns 0
(false) otherwise. -/
theorem play_returns_one_iff_final_mode_five (g : Nat → Nat) :
    (play_one_round_of_yahtzee g = 1 ↔
      (runLoop 3 (initState g)).mode_count = 5) ∧
    (play_one_round_of_yahtzee g = 0 ↔
      (runLoop 3 (initState g)).mode_count ≠ 5) := by
  rw [play_one_round_of_yahtzee]
  by_cases h : (runLoop 3 (initState g)).mode_count = 5
  · rw [if_pos h]
    constructor <;> simp [h]
  · rw [if_neg h]
    constructor <;> simp [h]

/-- Witness for C1: a source that always rolls 1 yields a Yahtzee. -/
theorem play_returns_one_iff_final_mode_five_witness :
    play_one_round_of_yahtzee (fun _ => 0) = 1 :=
  (play_returns_one_iff_final_mode_five (fun _ => 0)).1.mpr (by decide)

/-- C2: every turn rolls at most 3 hands, and from any state whose best
mode-count has reached 5 the loop performs no further roll at all. -/
theorem turn_rolls_at_most_three_and_stops_at_yahtzee (g : Nat → Nat) :
    (runLoop 3 (initState g)).rolls.length ≤ 3 ∧
    ∀ (fuel : Nat) (st : TurnState), 5 ≤ st.mode_count → runLoop fuel st = st := by
  constructor
  · have h := runLoop_rolls_le 3 (initState g)
    simpa [initState] using h
  · exact fun fuel st h => runLoop_of_mode fuel st h

/-- Witness for C2: a concrete turn's trace has at most 3 rolls, and a
concrete state with mode-count 5 is a fixed point of the loop. -/
theorem turn_rolls_at_most_three_and_stops_at_yahtzee_witness :
    (runLoop 3 (initState (fun j => j))).rolls.length ≤ 3 ∧
    runLoop 2 ⟨[2, 2, 2, 2, 2], 1, 5, ⟨fun j => j, 5⟩, [[2, 2, 2, 2, 2]]⟩ =
      ⟨[2, 2, 2, 2, 2], 1, 5, ⟨fun j => j, 5⟩, [[2, 2, 2, 2, 2]]⟩ :=
  ⟨(turn_rolls_at_most_three_and_stops_at_yahtzee (fun j => j)).1,
    (turn_rolls_at_most_three_and_stops_at_yahtzee (fun j => j)).2 2
      ⟨[2, 2, 2, 2, 2], 1, 5, ⟨fun j => j, 5⟩, [[2, 2, 2, 2, 2]]⟩ (by decide)⟩

/-- C3: for every hand of 5 dice with faces in [1,6], `find_what_to_keep`
returns as count the maximum frequency of any face of the hand, and its
list contains exactly the faces attaining that maximum. -/
theorem fwtk_returns_max_count_and_exact_modes (hand : List Nat)
    (h5 : hand.length = 5) (hf : ∀ v ∈ hand, 1 ≤ v ∧ v ≤ 6) :
    (∀ v ∈ hand, hand.count v ≤ (find_what_to_keep hand).2) ∧
    (∃ v ∈ hand, hand.count v = (find_what_to_keep hand).2) ∧
    (∀ v, v ∈ (find_what_to_keep hand).1 ↔
      v ∈ hand ∧ hand.count v = (find_what_to_keep hand).2) := by
  have hne : hand ≠ [] := by
    intro h
    rw [h] at h5
    simp at h5
  exact ⟨fwtk_count_le hand, fwtk_count_attained hand hne,
    fun v => fwtk_mem_iff hand v⟩

/-- Witness for C3: the hand [1,1,2,3,4] evaluated at face 1. -/
theorem fwtk_returns_max_count_and_exact_modes_witness :
    [1, 1, 2, 3, 4].count 1 ≤ (find_what_to_keep [1, 1, 2, 3, 4]).2 ∧
    (1 ∈ (find_what_to_keep [1, 1, 2, 3, 4]).1 ↔
      1 ∈ [1, 1, 2, 3, 4] ∧
        [1, 1, 2, 3, 4].count 1 = (find_what_to_keep [1, 1, 2, 3, 4]).2) :=
  ⟨(fwtk_returns_max_count_and_exact_modes [1, 1, 2, 3, 4] (by decide)
      (by decide)).1 1 (by decide),
    (fwtk_returns_max_count_and_exact_modes [1, 1, 2, 3, 4] (by decide)
      (by decide)).2.2 1⟩

/-- C4: for every valid hand and chosen tie-break face, every die in the
kept set equals the chosen face, and the kept set has as many dice as the
hand has dice showing that face. -/
theorem kept_set_matches_chosen_face (roll : List Nat) (keep : Nat)
    (h5 : roll.length = 5) (hf : ∀ d ∈ roll, 1 ≤ d ∧ d ≤ 6)
    (hk : keep ∈ (find_what_to_keep roll).1) :
    (∀ d ∈ keepStep roll keep, d = keep) ∧
    (keepStep roll keep).length = roll.count keep :=
  ⟨keepStep_all_eq roll keep, keepStep_length roll keep⟩

/-- Witness for C4: keeping face 3 from [3,3,4,5,6] keeps count-many dice. -/
theorem kept_set_matches_chosen_face_witness :
    (keepStep [3, 3, 4, 5, 6] 3).length = [3, 3, 4, 5, 6].count 3 :=
  (kept_set_matches_chosen_face [3, 3, 4, 5, 6] 3 (by decide) (by decide)
    (by decide)).2

/-- C5: when every one of the n > 0 trials fails, `estimate` returns
`p_hat` = 0 together with a distinct UndefinedResult condition for the
expected-turns value, rather than a numeric result. -/
theorem estimate_all_fail_undefined (n : Int) (g : Nat → Nat → Nat)
    (hn : 0 < n)
    (hall : ∀ i, i < n.toNat → play_one_round_of_yahtzee (g i) = 0) :
    estimate n g =
      Except.ok (0, Except.error EstimateError.undefinedResult) := by
  have hsum : (run_trials n.toNat g).sum = 0 := by
    apply List.sum_eq_zero
    intro x hx
    rcases List.mem_map.mp hx with ⟨i, hi, hxe⟩
    rw [← hxe]
    exact hall i (List.mem_range.mp hi)
  have hph : p_hat n.toNat g = 0 := by
    rw [p_hat, listMean, hsum]
    simp
  rw [estimate, if_neg (by omega), hph, if_pos rfl]

/-- Witness for C5: with a cycling source no trial succeeds, and
`estimate 1` reports p_hat 0 with UndefinedResult. -/
theorem estimate_all_fail_undefined_witness :
    estimate 1 (fun _ j => j) =
      Except.ok (0, Except.error EstimateError.undefinedResult) :=
  estimate_all_fail_undefined 1 (fun _ j => j) (by decide)
    (fun i _ => (by decide : play_one_round_of_yahtzee (fun j => j) = 0))

/-- C6: for every n ≤ 0 the estimator fails with InvalidArgument, and the
result does not depend on the random source (no trial is consulted). -/
theorem estimate_nonpositive_invalid (n : Int) (hn : n ≤ 0)
    (g g2 : Nat → Nat → Nat) :
    estimate n g = Except.error EstimateError.invalidArgument ∧
    estimate n g = estimate n g2 := by
  constructor
  · rw [estimate, if_pos hn]
  · rw [estimate, if_pos hn, estimate, if_pos hn]

/-- Witness for C6: `estimate 0` fails with InvalidArgument for two
different sources. -/
theorem estimate_nonpositive_invalid_witness :
    estimate 0 (fun _ _ => 0) = Except.error EstimateError.invalidArgument ∧
    estimate 0 (fun _ _ => 0) = estimate 0 (fun _ j => j) :=
  estimate_nonpositive_invalid 0 (by decide) (fun _ _ => 0) (fun _ j => j)

/-- C7: for every positive n and every random source the estimator runs
exactly n trials, and returns `p_hat` = (number of successful trials) / n,
a value in [0,1]. -/
theorem estimator_runs_n_trials_and_returns_mean (n : Int)
    (g : Nat → Nat → Nat) (hn : 0 < n) :
    (run_trials n.toNat g).length = n.toNat ∧
    p_hat n.toNat g = ((run_trials n.toNat g).count 1 : ℚ) / (n : ℚ) ∧
    0 ≤ p_hat n.toNat g ∧ p_hat n.toNat g ≤ 1 ∧
    (estimate n g).toOption.map Prod.fst = some (p_hat n.toNat g) := by
  have hcast : ((n.toNat : ℚ)) = (n : ℚ) := by
    exact_mod_cast Int.toNat_of_nonneg hn.le
  refine ⟨run_trials_length _ _, ?_, p_hat_nonneg _ _, p_hat_le_one _ _, ?_⟩
  · rw [p_hat_eq_count_div, hcast]
  · rw [estimate, if_neg (by omega)]
    rfl

/-- Witness for C7: two trials with a cycling source give a sample mean in
[0,1] over a sample of size two. -/
theorem estimator_runs_n_trials_and_returns_mean_witness :
    (run_trials (2 : Int).toNat (fun i j => i + j)).length = (2 : Int).toNat ∧
    0 ≤ p_hat (2 : Int).toNat (fun i j => i + j) ∧
    p_hat (2 : Int).toNat (fun i j => i + j) ≤ 1 :=
  ⟨(estimator_runs_n_trials_and_returns_mean 2 (fun i j => i + j)
      (by decide)).1,
    (estimator_runs_n_trials_and_returns_mean 2 (fun i j => i + j)
      (by decide)).2.2.1,
    (estimator_runs_n_trials_and_returns_mean 2 (fun i j => i + j)
      (by decide)).2.2.2.1⟩

/-- C8 counterexample: the claim that some 5-dice hand makes
`find_what_to_keep` include a face of strictly lower frequency than the
maximum is false: `most_common` ranks faces by descending count, so the
threshold loop only ever appends maximal faces. -/
theorem mode_list_never_contains_lower_count :
    ¬ ∃ hand : List Nat, hand.length = 5 ∧ (∀ v ∈ hand, 1 ≤ v ∧ v ≤ 6) ∧
      ∃ v, v ∈ (find_what_to_keep hand).1 ∧
        hand.count v < (find_what_to_keep hand).2 := by
  rintro ⟨hand, h5, hf, v, hv, hlt⟩
  have h := (fwtk_mem_iff hand v).mp hv
  omega

/-- C8 amended: for every 5-dice hand with faces in [1,6], every face in
the returned mode list has frequency exactly equal to the returned
maximum; no strictly lower-count face is ever included. -/
theorem mode_list_counts_equal_max (hand : List Nat) (h5 : hand.length = 5)
    (hf : ∀ v ∈ hand, 1 ≤ v ∧ v ≤ 6) :
    ∀ v ∈ (find_what_to_keep hand).1,
      hand.count v = (find_what_to_keep hand).2 :=
  fun v hv => ((fwtk_mem_iff hand v).mp hv).2

/-- Witness for the amended C8: in the tie hand [2,2,3,3,4] the listed
face 3 has exactly the maximal count. -/
theorem mode_list_counts_equal_max_witness :
    [2, 2, 3, 3, 4].count 3 = (find_what_to_keep [2, 2, 3, 3, 4]).2 :=
  mode_list_counts_equal_max [2, 2, 3, 3, 4] (by decide) (by decide) 3
    (by decide)

/-- C9: when the rolled hand has maximum frequency 1 (no two dice share a
value, i.e. each face occurs once), the keep step does not fire and the
kept set is unchanged by that loop iteration. -/
theorem no_pair_keeps_nothing (st : TurnState)
    (h : ∀ d ∈ (roll_dice st.previous_roll st.rand).1,
      (roll_dice st.previous_roll st.rand).1.count d = 1) :
    (loopBody st).previous_roll = st.previous_roll := by
  have hne := roll_dice_ne_nil st.previous_roll st.rand
  obtain ⟨w, hw, hwc⟩ := fwtk_count_attained _ hne
  have hle : (find_what_to_keep (roll_dice st.previous_roll st.rand).1).2 ≤ 1 := by
    rw [← hwc]
    exact le_of_eq (h w hw)
  rw [loopBody_eq, if_neg (by omega)]

/-- Witness for C9: from the empty initial kept set, the all-distinct roll
[1,2,3,4,5] keeps nothing. -/
theorem no_pair_keeps_nothing_witness :
    (loopBody (initState (fun j => j))).previous_roll =
      (initState (fun j => j)).previous_roll :=
  no_pair_keeps_nothing (initState (fun j => j)) (by decide)

/-- C10: loop invariant of the turn simulator: at every iteration the kept
set has at most 5 dice, all with faces in [1,6]; hence the hand produced
by `roll_dice` has exactly 5 dice with faces in [1,6] and starts with the
kept set unchanged; and the best mode-count never decreases from one
sub-roll to the next. -/
theorem turn_loop_invariant (g : Nat → Nat) (i : Nat) :
    ((runLoop i (initState g)).previous_roll.length ≤ 5 ∧
      ∀ d ∈ (runLoop i (initState g)).previous_roll, 1 ≤ d ∧ d ≤ 6) ∧
    ((roll_dice (runLoop i (initState g)).previous_roll
        (runLoop i (initState g)).rand).1.length = 5 ∧
      (∀ d ∈ (roll_dice (runLoop i (initState g)).previous_roll
          (runLoop i (initState g)).rand).1, 1 ≤ d ∧ d ≤ 6) ∧
      (roll_dice (runLoop i (initState g)).previous_roll
          (runLoop i (initState g)).rand).1.take
          (runLoop i (initState g)).previous_roll.length =
        (runLoop i (initState g)).previous_roll) ∧
    (runLoop i (initState g)).mode_count ≤
      (runLoop (i + 1) (initState g)).mode_count := by
  obtain ⟨h1, h2, h3⟩ := TurnInv_runLoop g i
  refine ⟨⟨h1, h2⟩,
    ⟨roll_dice_length _ _ h1, roll_dice_mem _ _ h2, roll_dice_take _ _⟩, ?_⟩
  rw [runLoop_succ]
  exact (stepOnce_preserves _ (TurnInv_runLoop g i)).2

/-- Witness for C10: with a cycling source, the mode-count after two
sub-rolls is at least the mode-count after one. -/
theorem turn_loop_invariant_witness :
    (runLoop 1 (initState (fun j => j))).mode_count ≤
      (runLoop 2 (initState (fun j => j))).mode_count :=
  (turn_loop_invariant (fun j => j) 1).2.2
